import Mathlib

/-!
Verification of the entity-extraction and dominance-ranking pipeline of
`advanced_ner_extractor.py` (class `AdvancedNERExtractor` and the entry point
`extract_top_companies`).

Python strings are modelled as `List Char`; Python `float` arithmetic on the
scores is modelled exactly over `ℚ` (all constants involved are small decimal
fractions); Python `int` as `Nat` where the source only ever holds
non-negative values.  The two external capabilities (the transformers tagger
and the Gemini validator) are out of scope and appear as function parameters;
the in-repository pattern fallback `_extract_with_patterns` is embedded in
full.
-/

/-- Python strings, modelled as lists of characters. -/
abbrev Str := List Char

/-- Convenience conversion from a Lean string literal. -/
def s2c (s : String) : Str := s.toList

/-- Python `str.lower()` (ASCII case folding suffices for the source's data). -/
def lowerStr (s : Str) : Str := s.map Char.toLower

/-- Whitespace test used by Python `str.split()` / `str.strip()`. -/
def isWs (c : Char) : Bool := c.isWhitespace

/-- Python `str.strip()`. -/
def stripStr (s : Str) : Str :=
  ((s.dropWhile isWs).reverse.dropWhile isWs).reverse

theorem length_dropWhile_le (p : Char → Bool) (l : Str) :
    (l.dropWhile p).length ≤ l.length := by
  induction l with
  | nil => simp [List.dropWhile]
  | cons c cs ih =>
    simp only [List.dropWhile]
    split
    · exact Nat.le_succ_of_le ih
    · exact Nat.le_refl _

/-- Helper for `splitWords`: `acc` holds the reversed characters of the word
currently being read (structural recursion so that the kernel can run it). -/
def splitWordsGo : Str → Str → List Str
  | [], acc => if acc.isEmpty then [] else [acc.reverse]
  | c :: cs, acc =>
    if isWs c then
      if acc.isEmpty then splitWordsGo cs [] else acc.reverse :: splitWordsGo cs []
    else splitWordsGo cs (c :: acc)

/-- Python `str.split()` with no argument: split on runs of whitespace,
dropping empty pieces. -/
def splitWords (s : Str) : List Str := splitWordsGo s []

theorem splitWordsGo_acc (s : Str) (acc : Str) (h : acc ≠ []) :
    splitWordsGo s acc =
      (acc.reverse ++ s.takeWhile (fun d => !isWs d)) ::
        splitWords (s.dropWhile (fun d => !isWs d)) := by
  induction s generalizing acc with
  | nil =>
    simp [splitWordsGo, splitWords, List.isEmpty_iff, h, List.takeWhile, List.dropWhile]
  | cons c cs ih =>
    by_cases hc : isWs c
    · have : (c :: cs).takeWhile (fun d => !isWs d) = [] := by
        simp [List.takeWhile, hc]
      rw [this]
      have hdrop : (c :: cs).dropWhile (fun d => !isWs d) = c :: cs := by
        simp [List.dropWhile, hc]
      rw [hdrop]
      simp only [splitWordsGo, hc, if_true, List.isEmpty_iff, h, if_neg h,
        List.append_nil]
      have : splitWords (c :: cs) = splitWordsGo cs [] := by
        simp [splitWords, splitWordsGo, hc]
      rw [this]
      simp
    · have htake : (c :: cs).takeWhile (fun d => !isWs d) =
          c :: cs.takeWhile (fun d => !isWs d) := by
        simp [List.takeWhile, hc]
      have hdrop : (c :: cs).dropWhile (fun d => !isWs d) =
          cs.dropWhile (fun d => !isWs d) := by
        simp [List.dropWhile, hc]
      rw [htake, hdrop]
      simp only [splitWordsGo, hc, if_false]
      rw [ih (c :: acc) (by simp)]
      simp

theorem splitWords_nil : splitWords [] = [] := rfl

theorem splitWords_ws (c : Char) (cs : Str) (h : isWs c = true) :
    splitWords (c :: cs) = splitWords cs := by
  simp [splitWords, splitWordsGo, h]

theorem splitWords_word (c : Char) (cs : Str) (h : isWs c = false) :
    splitWords (c :: cs) =
      (c :: cs.takeWhile (fun d => !isWs d)) ::
        splitWords (cs.dropWhile (fun d => !isWs d)) := by
  simp only [splitWords, splitWordsGo, h, Bool.false_eq_true, if_false]
  rw [splitWordsGo_acc cs [c] (by simp)]
  rfl

/-- Python `' '.join(words)`. -/
def joinSpace : List Str → Str
  | [] => []
  | [w] => w
  | w :: ws => w ++ ' ' :: joinSpace ws

/-- Finds the first occurrence of `sep` in a string: returns the part before
it and the part after it.  `none` when `sep` does not occur.  This is the
primitive behind Python's substring operators `in`, `.count` and `.split`. -/
def breakOnSub (sep : Str) : Str → Option (Str × Str)
  | [] => if sep.isEmpty then some ([], []) else none
  | c :: cs =>
    if sep.isPrefixOf (c :: cs) then some ([], (c :: cs).drop sep.length)
    else
      match breakOnSub sep cs with
      | some (p, r) => some (c :: p, r)
      | none => none

/-- Python `sub in s` (substring containment). -/
def isSubstr (sub s : Str) : Bool := (breakOnSub sub s).isSome

/-- Helper for `countSub`: scans the string left to right; the `Nat` argument
is how many characters of an already-counted occurrence remain to be
skipped (occurrences are counted non-overlapping, as Python does). -/
def countSubGo (sub : Str) : Str → Nat → Nat
  | [], _ => 0
  | _ :: t, Nat.succ k => countSubGo sub t k
  | c :: t, 0 =>
    if sub.isPrefixOf (c :: t) then 1 + countSubGo sub t (sub.length - 1)
    else countSubGo sub t 0

/-- Python `s.count(sub)`: non-overlapping occurrences, scanned left to
right (`s.count("") == len(s) + 1` in Python). -/
def countSub (sub s : Str) : Nat :=
  if sub.isEmpty then s.length + 1 else countSubGo sub s 0

/-- Python `x in l` for a list of strings (exact membership). -/
def memW (l : List Str) (w : Str) : Bool := l.any (fun x => decide (x = w))

/-- Python `l.index (w)` for word lists: index of the first occurrence. -/
def idxOfW : List Str → Str → Nat
  | [], _ => 0
  | x :: xs, w => if x = w then 0 else idxOfW xs w + 1

/-- `self.excluded_publishers` (source lines 51-56). -/
def excludedPublishers : List Str :=
  [s2c "reuters", s2c "bloomberg", s2c "cnbc", s2c "cnn", s2c "bbc",
   s2c "forbes", s2c "techcrunch", s2c "times", s2c "post", s2c "guardian",
   s2c "journal", s2c "news", s2c "press", s2c "media", s2c "tribune",
   s2c "herald", s2c "gazette", s2c "chronicle", s2c "observer",
   s2c "telegraph", s2c "associated press", s2c "ap news", s2c "afp",
   s2c "pti", s2c "ani", s2c "ians"]

/-- `self.generic_terms` (source lines 59-67). -/
def genericTerms : List Str :=
  [s2c "government", s2c "police", s2c "court", s2c "hospital",
   s2c "university", s2c "school", s2c "company", s2c "corporation",
   s2c "industry", s2c "market", s2c "sector", s2c "department",
   s2c "ministry", s2c "office", s2c "bureau", s2c "agency", s2c "service",
   s2c "center", s2c "institute", s2c "foundation", s2c "trust",
   s2c "group", s2c "team", s2c "committee", s2c "council", s2c "board",
   s2c "commission", s2c "authority", s2c "people", s2c "public",
   s2c "officials", s2c "sources", s2c "experts", s2c "analysts",
   s2c "investors", s2c "customers", s2c "budget", s2c "mission",
   s2c "fund", s2c "scheme", s2c "plan", s2c "survey"]

/-- `self.location_indicators` (source lines 70-76). -/
def locationIndicators : List Str :=
  [s2c "india", s2c "indian", s2c "us", s2c "usa", s2c "uk", s2c "china",
   s2c "chinese", s2c "japan", s2c "america", s2c "american", s2c "europe",
   s2c "european", s2c "asia", s2c "asian", s2c "delhi", s2c "mumbai",
   s2c "bangalore", s2c "london", s2c "new york", s2c "beijing",
   s2c "tokyo", s2c "singapore", s2c "dubai", s2c "california",
   s2c "texas", s2c "bharat", s2c "central", s2c "national",
   s2c "global", s2c "international"]

/-- `self.company_suffixes` (source lines 79-83). -/
def companySuffixes : List Str :=
  [s2c "inc", s2c "corp", s2c "ltd", s2c "llc", s2c "co", s2c "group",
   s2c "holdings", s2c "technologies", s2c "systems", s2c "solutions",
   s2c "services", s2c "industries", s2c "enterprises",
   s2c "international", s2c "global", s2c "motors", s2c "energy",
   s2c "pharma", s2c "labs"]

/-- Python `entity[0].isupper()` (the source indexes `entity[0]`, which
raises on an empty string; every string reaching it in the pipeline is a
nonempty whitespace-split token). -/
def headIsUpper : Str → Bool
  | [] => false
  | c :: _ => c.isUpper

/-- Python `entity.isupper()`: at least one cased character and no cased
character lowercase (ASCII). -/
def pyIsUpper (s : Str) : Bool :=
  s.any Char.isAlpha && s.all (fun c => !c.isAlpha || c.isUpper)

/-- Python `re.match` against the pattern of digits, whitespace, hyphens and
slashes anchored at both ends (source line 162). -/
def numericPunct (s : Str) : Bool :=
  !s.isEmpty && s.all (fun c => c.isDigit || c.isWhitespace || c = '-' || c = '/')

/-- `_is_valid_company_name` (source lines 131-165). -/
def isValidCompanyName (entity : Str) : Bool :=
  let entityLower := stripStr (lowerStr entity)
  if excludedPublishers.any (fun pub => isSubstr pub entityLower) then false
  else if (!entityLower.any (fun c => decide (c = ' '))) &&
      memW genericTerms entityLower then false
  else if memW locationIndicators entityLower then false
  else if !headIsUpper entity then false
  else if entity.length < 3 then false
  else if pyIsUpper entity && entity.length < 3 then false
  else if numericPunct entity then false
  else true

/-- C2: the validity filter `_is_valid_company_name` returns `False` on
"Reuters", "Government", "India", "us", "12-34" and "apple", and `True` on
"Apple Inc", "OpenAI" and "Tesla". -/
theorem validity_filter_examples :
    isValidCompanyName (s2c "Reuters") = false ∧
    isValidCompanyName (s2c "Government") = false ∧
    isValidCompanyName (s2c "India") = false ∧
    isValidCompanyName (s2c "us") = false ∧
    isValidCompanyName (s2c "12-34") = false ∧
    isValidCompanyName (s2c "apple") = false ∧
    isValidCompanyName (s2c "Apple Inc") = true ∧
    isValidCompanyName (s2c "OpenAI") = true ∧
    isValidCompanyName (s2c "Tesla") = true := by
  decide

/-- `action_verbs` (source lines 186-187), in source order: the outer loop of
Factor 2 iterates over this list. -/
def actionVerbs : List Str :=
  [s2c "launches", s2c "announces", s2c "reports", s2c "unveils",
   s2c "introduces", s2c "acquires", s2c "partners", s2c "expands",
   s2c "raises", s2c "files", s2c "wins"]

/-- Inner loop of Factor 2 (source lines 197-202): walk the entity's words;
on the first one that occurs in the headline at a word index strictly before
`verbPos`, contribute 0.4 and stop; a word occurring only at or after
`verbPos` does not stop the walk. -/
def subjectInner (headlineWords : List Str) (verbPos : Nat) : List Str → ℚ
  | [] => 0
  | w :: ws =>
    if memW headlineWords w then
      if idxOfW headlineWords w < verbPos then 0.4
      else subjectInner headlineWords verbPos ws
    else subjectInner headlineWords verbPos ws

/-- Outer loop of Factor 2 (source lines 193-203): walk the action verbs in
list order; at the first verb present in the headline run the inner loop and
stop (the `break` on line 203 runs whether or not 0.4 was added). -/
def subjectOuter (headlineWords entityWords : List Str) : List Str → ℚ
  | [] => 0
  | v :: vs =>
    if memW headlineWords v then
      subjectInner headlineWords (idxOfW headlineWords v) entityWords
    else subjectOuter headlineWords entityWords vs

/-- Factor 2 of `_calculate_involvement_score` (source lines 184-203). -/
def subjectScore (entityWords headlineWords : List Str) : ℚ :=
  subjectOuter headlineWords entityWords actionVerbs

/-- Boolean characterization of Factor 2: the first action verb (in
`actionVerbs` order) present in the headline, with some entity word whose
first occurrence precedes that verb's first occurrence. -/
def subjectHit (entityWords headlineWords : List Str) : Bool :=
  match actionVerbs.find? (fun v => memW headlineWords v) with
  | none => false
  | some v => entityWords.any (fun w =>
      memW headlineWords w && decide (idxOfW headlineWords w < idxOfW headlineWords v))

theorem subjectInner_eq (hw : List Str) (p : Nat) (ew : List Str) :
    subjectInner hw p ew =
      if ew.any (fun w => memW hw w && decide (idxOfW hw w < p)) then 0.4 else 0 := by
  induction ew with
  | nil => simp [subjectInner]
  | cons w ws ih =>
    simp only [subjectInner, List.any_cons]
    by_cases h1 : memW hw w
    · by_cases h2 : idxOfW hw w < p
      · simp [h1, h2]
      · simp [h1, h2, ih]
    · simp [h1, ih]


theorem subjectOuter_eq (hw ew : List Str) (vs : List Str) :
    subjectOuter hw ew vs =
      match vs.find? (fun v => memW hw v) with
      | none => 0
      | some v => if ew.any (fun w =>
          memW hw w && decide (idxOfW hw w < idxOfW hw v)) then 0.4 else 0 := by
  induction vs with
  | nil => simp [subjectOuter, List.find?]
  | cons v vs ih =>
    by_cases h : memW hw v
    · rw [List.find?_cons_of_pos _ h]
      simp only [subjectOuter, h, if_true]
      exact subjectInner_eq hw (idxOfW hw v) ew
    · rw [List.find?_cons_of_neg _ (by simp [h])]
      simp only [subjectOuter, h, Bool.false_eq_true, if_false]
      exact ih

theorem subjectScore_eq (ew hw : List Str) :
    subjectScore ew hw = if subjectHit ew hw then 0.4 else 0 := by
  rw [subjectScore, subjectOuter_eq, subjectHit]
  cases actionVerbs.find? (fun v => memW hw v) <;> simp

theorem memW_iff (l : List Str) (w : Str) : memW l w = true ↔ w ∈ l := by
  simp only [memW, List.any_eq_true, decide_eq_true_eq]
  constructor
  · rintro ⟨x, hx, rfl⟩; exact hx
  · intro h; exact ⟨w, h, rfl⟩

theorem idxOfW_get? (l : List Str) (w : Str) (h : w ∈ l) :
    l.get? (idxOfW l w) = some w := by
  induction l with
  | nil => cases h
  | cons x xs ih =>
    by_cases hx : x = w
    · subst hx
      simp [idxOfW]
    · have hm : w ∈ xs := by
        rcases List.mem_cons.1 h with h1 | h1
        · exact absurd h1.symm hx
        · exact h1
      rw [idxOfW, if_neg hx, List.get?_cons_succ]
      exact ih hm

theorem idxOfW_le (l : List Str) (w : Str) (i : Nat) (h : l.get? i = some w) :
    idxOfW l w ≤ i := by
  induction l generalizing i with
  | nil => simp [List.get?] at h
  | cons x xs ih =>
    by_cases hx : x = w
    · rw [idxOfW, if_pos hx]
      exact Nat.zero_le i
    · cases i with
      | zero =>
        rw [List.get?_cons_zero] at h
        exact absurd (Option.some.inj h) hx
      | succ j =>
        rw [List.get?_cons_succ] at h
        rw [idxOfW, if_neg hx]
        exact Nat.succ_le_succ (ih j h)

theorem earlier_occurrence_iff (hw : List Str) (w : Str) (p : Nat) :
    (∃ i, hw.get? i = some w ∧ i < p) ↔ (memW hw w = true ∧ idxOfW hw w < p) := by
  constructor
  · rintro ⟨i, hget, hip⟩
    have hm : w ∈ hw := List.get?_mem hget
    exact ⟨(memW_iff hw w).2 hm, Nat.lt_of_le_of_lt (idxOfW_le hw w i hget) hip⟩
  · rintro ⟨hm, hlt⟩
    exact ⟨idxOfW hw w, idxOfW_get? hw w ((memW_iff hw w).1 hm), hlt⟩

theorem subjectHit_iff (ew hw : List Str) :
    subjectHit ew hw = true ↔
      ∃ v, (actionVerbs.find? fun u => memW hw u) = some v ∧
        ∃ w ∈ ew, ∃ i, hw.get? i = some w ∧ i < idxOfW hw v := by
  unfold subjectHit
  cases hfind : actionVerbs.find? (fun u => memW hw u) with
  | none =>
    simp [hfind]
  | some v =>
    simp only [hfind]
    constructor
    · intro h
      rcases List.any_eq_true.1 h with ⟨w, hwm, hc⟩
      simp only [Bool.and_eq_true, decide_eq_true_eq] at hc
      exact ⟨v, rfl, w, hwm, (earlier_occurrence_iff hw w _).2 ⟨hc.1, hc.2⟩⟩
    · rintro ⟨v', hv, w, hwm, i, hget, hlt⟩
      have hvv : v = v' := Option.some.inj hv
      subst hvv
      refine List.any_eq_true.2 ⟨w, hwm, ?_⟩
      have hc := (earlier_occurrence_iff hw w _).1 ⟨i, hget, hlt⟩
      simp [hc.1, hc.2]

/-- C4: in Factor 2 of the involvement scorer, exactly one verb is
considered — the first action verb (in the fixed scan order of
`action_verbs`) found in the headline's word list — 0.4 is contributed iff
some word of the entity occurs at an earlier word index than that verb's
first occurrence, and the factor is never anything but 0 or 0.4 (no
accumulation across several verbs). -/
theorem subject_factor_single_verb (entity headline : Str) :
    (subjectScore (splitWords (lowerStr entity)) (splitWords (lowerStr headline)) = 0 ∨
      subjectScore (splitWords (lowerStr entity)) (splitWords (lowerStr headline)) = 0.4) ∧
    (subjectScore (splitWords (lowerStr entity)) (splitWords (lowerStr headline)) = 0.4 ↔
      ∃ v, (actionVerbs.find? fun u => memW (splitWords (lowerStr headline)) u) = some v ∧
        ∃ w ∈ splitWords (lowerStr entity), ∃ i,
          (splitWords (lowerStr headline)).get? i = some w ∧
          i < idxOfW (splitWords (lowerStr headline)) v) := by
  set ew := splitWords (lowerStr entity) with hew
  set hw := splitWords (lowerStr headline) with hhw
  rw [subjectScore_eq]
  constructor
  · by_cases h : subjectHit ew hw <;> simp [h]
  · by_cases h : subjectHit ew hw
    · rw [if_pos h]
      exact iff_of_true rfl ((subjectHit_iff ew hw).1 h)
    · rw [if_neg h]
      refine iff_of_false (by norm_num) (fun hex => h ((subjectHit_iff ew hw).2 hex))

/-- Factor 1 of `_calculate_involvement_score` (source lines 176-182):
position ratio against the thresholds 0.4 and 0.6. -/
def posFactor (position totalWords : Nat) : ℚ :=
  if ((position : ℚ) / ((max totalWords 1 : Nat) : ℚ)) ≤ 0.4 then 0.3
  else if ((position : ℚ) / ((max totalWords 1 : Nat) : ℚ)) ≤ 0.6 then 0.15
  else 0

/-- The apostrophe character (used by the possessive check). -/
def apos : Char := '\''

/-- Condition of the possessive / "said" branch of Factor 3 (source line
208): the lowercased headline contains the substring entity followed by an
apostrophe and s, or entity followed by a space and the word said. -/
def possessiveHit (entityLower headlineLower : Str) : Bool :=
  isSubstr (entityLower ++ [apos, 's']) headlineLower ||
    isSubstr (entityLower ++ s2c " said") headlineLower

/-- Python `s.split(sep)[1]` under the guard `sep in s`: the piece between
the first occurrence of `sep` and the next one (or the end of the string). -/
def pyPart1 (sep s : Str) : Str :=
  match breakOnSub sep s with
  | none => []
  | some (_, rest) =>
    match breakOnSub sep rest with
    | none => rest
    | some (p, _) => p

/-- Condition of the "according to" branch of Factor 3 (source line 210):
the headline contains "according to" and the entity occurs in
`headline_lower.split("according to")[1]`. -/
def accordingHit (entityLower headlineLower : Str) : Bool :=
  isSubstr (s2c "according to") headlineLower &&
    isSubstr entityLower (pyPart1 (s2c "according to") headlineLower)

/-- Factor 3 of `_calculate_involvement_score` (source lines 205-211): +0.2
for a possessive or "said" pattern, otherwise -0.2 for a citation after
"according to". -/
def attributionScore (entityLower headlineLower : Str) : ℚ :=
  if possessiveHit entityLower headlineLower then 0.2
  else if accordingHit entityLower headlineLower then -0.2
  else 0

/-- Factor 4 of `_calculate_involvement_score` (source lines 213-216): +0.1
when the lowercased entity occurs exactly once in the lowercased headline. -/
def standaloneFactor (entityLower headlineLower : Str) : ℚ :=
  if countSub entityLower headlineLower = 1 then 0.1 else 0

/-- `_calculate_involvement_score` (source lines 167-218): the four factors
accumulate into `score`, which is finally clamped by
`min(max(score, 0.0), 1.0)`. -/
def involvementScore (entity headline : Str) (position totalWords : Nat) : ℚ :=
  min (max (posFactor position totalWords +
      subjectScore (splitWords (lowerStr entity)) (splitWords (lowerStr headline)) +
      attributionScore (lowerStr entity) (lowerStr headline) +
      standaloneFactor (lowerStr entity) (lowerStr headline)) 0) 1

theorem involvementScore_nonneg (entity headline : Str) (position totalWords : Nat) :
    0 ≤ involvementScore entity headline position totalWords := by
  rw [involvementScore]
  have h0 : (0 : ℚ) ≤ max (posFactor position totalWords +
      subjectScore (splitWords (lowerStr entity)) (splitWords (lowerStr headline)) +
      attributionScore (lowerStr entity) (lowerStr headline) +
      standaloneFactor (lowerStr entity) (lowerStr headline)) 0 := le_max_right _ _
  exact le_min h0 (by norm_num)

theorem involvementScore_le_one (entity headline : Str) (position totalWords : Nat) :
    involvementScore entity headline position totalWords ≤ 1 :=
  min_le_right _ _

/-- Evaluation of the involvement scorer on the spec's worked example
(shared by several witnesses below). -/
theorem tesla_involvement_eval :
    involvementScore (s2c "Tesla") (s2c "Tesla unveils new factory in Texas") 0 6
      = 0.8 := by
  rw [involvementScore, subjectScore_eq]
  have h1 : subjectHit (splitWords (lowerStr (s2c "Tesla")))
      (splitWords (lowerStr (s2c "Tesla unveils new factory in Texas"))) = true := by
    decide
  have h2 : possessiveHit (lowerStr (s2c "Tesla"))
      (lowerStr (s2c "Tesla unveils new factory in Texas")) = false := by decide
  have h3 : accordingHit (lowerStr (s2c "Tesla"))
      (lowerStr (s2c "Tesla unveils new factory in Texas")) = false := by decide
  have h4 : countSub (lowerStr (s2c "Tesla"))
      (lowerStr (s2c "Tesla unveils new factory in Texas")) = 1 := by decide
  rw [h1, if_pos rfl]
  rw [attributionScore, h2, h3]
  rw [standaloneFactor, if_pos h4]
  rw [posFactor]
  norm_num

theorem takeWhile_append_all (p : Char → Bool) (w t : Str)
    (h : ∀ a ∈ w, p a = true) :
    (w ++ t).takeWhile p = w ++ t.takeWhile p := by
  induction w with
  | nil => simp
  | cons c cs ih =>
    simp only [List.cons_append, List.takeWhile]
    rw [h c (by simp)]
    simp only [List.cons.injEq, true_and]
    exact ih (fun a ha => h a (by simp [ha]))

theorem dropWhile_append_all (p : Char → Bool) (w t : Str)
    (h : ∀ a ∈ w, p a = true) :
    (w ++ t).dropWhile p = t.dropWhile p := by
  induction w with
  | nil => simp
  | cons c cs ih =>
    simp only [List.cons_append, List.dropWhile]
    rw [h c (by simp)]
    exact ih (fun a ha => h a (by simp [ha]))

/-- A word is "clean" when it is nonempty and holds no whitespace: exactly
what Python `str.split()` produces. -/
def cleanWord (w : Str) : Prop := w ≠ [] ∧ ∀ c ∈ w, isWs c = false

theorem splitWords_clean (s : Str) : ∀ w ∈ splitWords s, cleanWord w := by
  have main : ∀ n (s : Str), s.length ≤ n → ∀ w ∈ splitWords s, cleanWord w := by
    intro n
    induction n with
    | zero =>
      intro s hs w hw
      rw [List.length_eq_zero.1 (Nat.le_zero.1 hs)] at hw
      cases hw
    | succ n ih =>
      intro s hs w hw
      cases s with
      | nil => cases hw
      | cons c cs =>
        by_cases hc : isWs c
        · rw [splitWords_ws c cs hc] at hw
          exact ih cs (by simpa using Nat.le_of_succ_le_succ hs) w hw
        · rw [splitWords_word c cs (by simpa using hc)] at hw
          rcases List.mem_cons.1 hw with rfl | hw
          · refine ⟨by simp, ?_⟩
            intro d hd
            rcases List.mem_cons.1 hd with rfl | hd
            · simpa using hc
            · simpa using List.mem_takeWhile_imp hd
          · refine ih (cs.dropWhile (fun d => !isWs d)) ?_ w hw
            have := length_dropWhile_le (fun d => !isWs d) cs
            simp only [List.length_cons] at hs
            omega
  exact main (s.length) s (Nat.le_refl _)

theorem splitWords_word_append (w t : Str) (hw : cleanWord w) :
    splitWords (w ++ t) =
      (w ++ t.takeWhile (fun d => !isWs d)) ::
        splitWords (t.dropWhile (fun d => !isWs d)) := by
  rcases w with _ | ⟨c, cs⟩
  · exact absurd rfl hw.1
  · have hc : isWs c = false := hw.2 c (by simp)
    have hcs : ∀ a ∈ cs, (fun d => !isWs d) a = true := by
      intro a ha
      simp [hw.2 a (by simp [ha])]
    rw [List.cons_append, splitWords_word c (cs ++ t) hc,
      takeWhile_append_all _ cs t hcs, dropWhile_append_all _ cs t hcs]
    simp

theorem splitWords_joinSpace (l : List Str) (h : ∀ w ∈ l, cleanWord w) :
    splitWords (joinSpace l) = l := by
  induction l with
  | nil => rfl
  | cons w ws ih =>
    cases ws with
    | nil =>
      have : joinSpace [w] = w ++ [] := by simp [joinSpace]
      rw [this, splitWords_word_append w [] (h w (by simp))]
      simp [splitWords_nil, List.takeWhile, List.dropWhile]
    | cons w2 ws2 =>
      have hj : joinSpace (w :: w2 :: ws2) = w ++ (' ' :: joinSpace (w2 :: ws2)) := by
        simp [joinSpace]
      rw [hj, splitWords_word_append w _ (h w (by simp))]
      have hsp : isWs ' ' = true := by decide
      have ht : (' ' :: joinSpace (w2 :: ws2)).takeWhile (fun d => !isWs d) = [] := by
        simp [List.takeWhile, hsp]
      have hd : (' ' :: joinSpace (w2 :: ws2)).dropWhile (fun d => !isWs d) =
          ' ' :: joinSpace (w2 :: ws2) := by
        simp [List.dropWhile, hsp]
      rw [ht, hd, splitWords_ws ' ' _ hsp, ih (fun x hx => h x (by simp [hx]))]
      simp

/-- Extension loop of `_extract_with_patterns` (source lines 307-312): from
word index `j`, extend the span while the token is uppercase-first or a
known corporate suffix.  The `Nat` fuel bounds the extension at 3 extra
words, which is the source's `j < i + 4` bound with `j` starting at `i + 1`. -/
def extendSpan (words : List Str) : Nat → Nat → List Str
  | _, 0 => []
  | j, Nat.succ k =>
    match words.get? j with
    | none => []
    | some w =>
      if headIsUpper w || memW companySuffixes (lowerStr w) then
        w :: extendSpan words (j + 1) k
      else []

/-- Main loop of `_extract_with_patterns` (source lines 300-321), scanning
from word index `i`: on an uppercase-first token emit the joined span and
resume after it (`i = j` in the source); otherwise step one token.  The fuel
only drives the recursion: each step advances `i` by at least one, so
`words.length` fuel starting from `i = 0` never runs out.  (The source's
`len(entity_words) >= 1` test is always true and its `else` arm is dead
code, so it is not modelled.) -/
def scanFrom (words : List Str) : Nat → Nat → List (Str × Nat)
  | _, 0 => []
  | i, Nat.succ fuel =>
    match words.get? i with
    | none => []
    | some w =>
      if headIsUpper w then
        (joinSpace (w :: extendSpan words (i + 1) 3), i) ::
          scanFrom words (i + 1 + (extendSpan words (i + 1) 3).length) fuel
      else scanFrom words (i + 1) fuel

/-- `_extract_with_patterns` (source lines 295-323). -/
def extractWithPatterns (text : Str) : List (Str × Nat) :=
  scanFrom (splitWords text) 0 (splitWords text).length

/-- Number of whitespace-separated words of a string. -/
def wordCount (s : Str) : Nat := (splitWords s).length

theorem extendSpan_mem (words : List Str) :
    ∀ k j w, w ∈ extendSpan words j k → w ∈ words := by
  intro k
  induction k with
  | zero => intro j w hw; cases hw
  | succ k ih =>
    intro j w hw
    unfold extendSpan at hw
    cases hget : words.get? j with
    | none => simp only [hget] at hw; cases hw
    | some x =>
      simp only [hget] at hw
      by_cases hcond : headIsUpper x || memW companySuffixes (lowerStr x)
      · rw [if_pos hcond] at hw
        rcases List.mem_cons.1 hw with rfl | hw
        · exact List.get?_mem hget
        · exact ih (j + 1) w hw
      · rw [if_neg hcond] at hw; cases hw

theorem extendSpan_len (words : List Str) :
    ∀ k j, (extendSpan words j k).length ≤ k := by
  intro k
  induction k with
  | zero => intro j; simp [extendSpan]
  | succ k ih =>
    intro j
    unfold extendSpan
    split
    · simp
    · split
      · simpa using Nat.succ_le_succ (ih (j + 1))
      · simp

theorem span_wordCount (words : List Str) (hok : ∀ w ∈ words, cleanWord w)
    (w : Str) (hw : w ∈ words) (ext : List Str) (hext : ∀ x ∈ ext, x ∈ words) :
    wordCount (joinSpace (w :: ext)) = 1 + ext.length := by
  rw [wordCount, splitWords_joinSpace]
  · simp [Nat.add_comm]
  · intro x hx
    rcases List.mem_cons.1 hx with rfl | hx
    · exact hok x hw
    · exact hok x (hext x hx)

theorem scanFrom_pos_le (words : List Str) :
    ∀ fuel i p, p ∈ scanFrom words i fuel → i ≤ p.2 := by
  intro fuel
  induction fuel with
  | zero => intro i p hp; cases hp
  | succ fuel ih =>
    intro i p hp
    unfold scanFrom at hp
    cases hget : words.get? i with
    | none => simp only [hget] at hp; cases hp
    | some w =>
      simp only [hget] at hp
      by_cases hup : headIsUpper w
      · rw [if_pos hup] at hp
        rcases List.mem_cons.1 hp with rfl | hp
        · exact Nat.le_refl _
        · have := ih _ p hp
          omega
      · rw [if_neg hup] at hp
        have := ih _ p hp
        omega

theorem scanFrom_shape (words : List Str) :
    ∀ fuel i p, p ∈ scanFrom words i fuel →
      ∃ w, words.get? p.2 = some w ∧ headIsUpper w = true ∧
        p.1 = joinSpace (w :: extendSpan words (p.2 + 1) 3) := by
  intro fuel
  induction fuel with
  | zero => intro i p hp; cases hp
  | succ fuel ih =>
    intro i p hp
    unfold scanFrom at hp
    cases hget : words.get? i with
    | none => simp only [hget] at hp; cases hp
    | some w =>
      simp only [hget] at hp
      by_cases hup : headIsUpper w
      · rw [if_pos hup] at hp
        rcases List.mem_cons.1 hp with rfl | hp
        · exact ⟨w, hget, hup, rfl⟩
        · exact ih _ p hp
      · rw [if_neg hup] at hp
        exact ih _ p hp

theorem scanFrom_pairwise (words : List Str) (hok : ∀ w ∈ words, cleanWord w) :
    ∀ fuel i, (scanFrom words i fuel).Pairwise
      (fun a b => a.2 + wordCount a.1 ≤ b.2 ∧ a.2 < b.2) := by
  intro fuel
  induction fuel with
  | zero => intro i; exact List.Pairwise.nil
  | succ fuel ih =>
    intro i
    unfold scanFrom
    split
    · exact List.Pairwise.nil
    · next w hget =>
      split
      · refine List.Pairwise.cons ?_ (ih _)
        intro b hb
        have hble := scanFrom_pos_le words fuel _ b hb
        have hcount : wordCount (joinSpace (w :: extendSpan words (i + 1) 3)) =
            1 + (extendSpan words (i + 1) 3).length :=
          span_wordCount words hok w (List.get?_mem hget) _
            (fun x hx => extendSpan_mem words 3 (i + 1) x hx)
        constructor
        · simp only [hcount]
          omega
        · omega
      · exact ih _

/-- C8: every span emitted by `_extract_with_patterns` starts at a token of
the whitespace-split input whose first character is uppercase, contains at
most 4 words, and the emitted spans are pairwise non-overlapping with
strictly increasing word positions. -/
theorem pattern_spans (text : Str) :
    (∀ p ∈ extractWithPatterns text,
      (∃ w, (splitWords text).get? p.2 = some w ∧ headIsUpper w = true) ∧
        wordCount p.1 ≤ 4) ∧
    (extractWithPatterns text).Pairwise
      (fun a b => a.2 + wordCount a.1 ≤ b.2 ∧ a.2 < b.2) := by
  have hok := splitWords_clean text
  constructor
  · intro p hp
    obtain ⟨w, hget, hup, hspan⟩ :=
      scanFrom_shape (splitWords text) (splitWords text).length 0 p hp
    refine ⟨⟨w, hget, hup⟩, ?_⟩
    rw [hspan, span_wordCount (splitWords text) hok w (List.get?_mem hget) _
      (fun x hx => extendSpan_mem (splitWords text) 3 (p.2 + 1) x hx)]
    have := extendSpan_len (splitWords text) 3 (p.2 + 1)
    omega
  · exact scanFrom_pairwise (splitWords text) hok (splitWords text).length 0

/-- Witness for C8: on the input "Apple Inc wins" the extractor emits the
span "Apple Inc" at position 0, which indeed starts uppercase and has two
words. -/
theorem pattern_spans_witness :
    (∃ w, (splitWords (s2c "Apple Inc wins")).get? (s2c "Apple Inc", 0).2 = some w ∧
      headIsUpper w = true) ∧
    wordCount (s2c "Apple Inc", 0).1 ≤ 4 :=
  (pattern_spans (s2c "Apple Inc wins")).1 (s2c "Apple Inc", 0) (by decide)

/-- Python `round` to an integer: round half to even (banker's rounding),
modelled exactly over `ℚ`. -/
def pyRound (x : ℚ) : ℤ :=
  if x - ⌊x⌋ < 1/2 then ⌊x⌋
  else if 1/2 < x - ⌊x⌋ then ⌊x⌋ + 1
  else if 2 ∣ ⌊x⌋ then ⌊x⌋ else ⌊x⌋ + 1

/-- Python `round(x, 2)` over `ℚ`. -/
def round2 (x : ℚ) : ℚ := (pyRound (x * 100) : ℚ) / 100

/-- Python `round(x, 1)` over `ℚ`. -/
def round1 (x : ℚ) : ℚ := (pyRound (x * 10) : ℚ) / 10

theorem floor_le_pyRound (x : ℚ) : ⌊x⌋ ≤ pyRound x := by
  unfold pyRound
  split
  · exact Int.le_refl _
  · split
    · omega
    · split
      · exact Int.le_refl _
      · omega

theorem pyRound_le_ceil (x : ℚ) : pyRound x ≤ ⌈x⌉ := by
  have hfc : ⌊x⌋ ≤ ⌈x⌉ := Int.floor_le_ceil x
  have hlt : ¬(x - ⌊x⌋ < 1/2) → ⌊x⌋ + 1 ≤ ⌈x⌉ := by
    intro h
    have hx : (⌊x⌋ : ℚ) < x := by
      have : (1 : ℚ)/2 ≤ x - ⌊x⌋ := le_of_not_lt h
      linarith
    have := Int.lt_ceil.2 hx
    omega
  unfold pyRound
  split
  · exact hfc
  · next h =>
    split
    · exact hlt h
    · split
      · exact hfc
      · exact hlt h

theorem le_pyRound (m : ℤ) (x : ℚ) (h : (m : ℚ) ≤ x) : m ≤ pyRound x :=
  Int.le_trans (Int.le_floor.2 h) (floor_le_pyRound x)

theorem pyRound_le (m : ℤ) (x : ℚ) (h : x ≤ (m : ℚ)) : pyRound x ≤ m :=
  Int.le_trans (pyRound_le_ceil x) (Int.ceil_le.2 h)

theorem round2_nonneg (x : ℚ) (h : 0 ≤ x) : 0 ≤ round2 x := by
  unfold round2
  have h0 : (0 : ℤ) ≤ pyRound (x * 100) :=
    le_pyRound 0 (x * 100) (by push_cast; linarith)
  have h0q : (0 : ℚ) ≤ (pyRound (x * 100) : ℚ) := by exact_mod_cast h0
  linarith

theorem round2_le_100 (x : ℚ) (h : x ≤ 100) : round2 x ≤ 100 := by
  unfold round2
  have h0 : pyRound (x * 100) ≤ (10000 : ℤ) :=
    pyRound_le 10000 (x * 100) (by push_cast; linarith)
  have h0q : (pyRound (x * 100) : ℚ) ≤ 10000 := by exact_mod_cast h0
  linarith

theorem le_round1 (m : ℤ) (x : ℚ) (h : (m : ℚ) ≤ x) : (m : ℚ) ≤ round1 x := by
  unfold round1
  have h0 : (10 * m : ℤ) ≤ pyRound (x * 10) :=
    le_pyRound (10 * m) (x * 10) (by push_cast; linarith)
  have h0q : ((10 * m : ℤ) : ℚ) ≤ (pyRound (x * 10) : ℚ) := by exact_mod_cast h0
  push_cast at h0q
  linarith

theorem round1_le (m : ℤ) (x : ℚ) (h : x ≤ (m : ℚ)) : round1 x ≤ (m : ℚ) := by
  unfold round1
  have h0 : pyRound (x * 10) ≤ (10 * m : ℤ) :=
    pyRound_le (10 * m) (x * 10) (by push_cast; linarith)
  have h0q : (pyRound (x * 10) : ℚ) ≤ ((10 * m : ℤ) : ℚ) := by exact_mod_cast h0
  push_cast at h0q
  linarith

/-- An input article: the pipeline reads `title` and `source` (source lines
234-235; a missing title is the empty string, a missing source the string
"Unknown", both subsumed by these fields). -/
structure Article where
  title : Str
  source : Str

/-- The per-entity aggregate of `extract_entities_ner` (source lines
225-231).  The Python `set` of sources is modelled as a duplicate-free list
(insertion adds only unseen elements). -/
structure EntityRecord where
  mentions : Nat
  involvement_scores : List ℚ
  headlines : List Str
  article_count : Nat
  sources : List Str

/-- The fresh record a `defaultdict` lookup creates (source lines 225-231). -/
def emptyRecord : EntityRecord :=
  { mentions := 0, involvement_scores := [], headlines := [],
    article_count := 0, sources := [] }

/-- One qualifying occurrence's update of an entity's record (source lines
266-269). -/
def addOccurrence (r : EntityRecord) (score : ℚ) (headline source : Str) :
    EntityRecord :=
  { r with
    mentions := r.mentions + 1,
    involvement_scores := r.involvement_scores ++ [score],
    headlines := r.headlines ++ [headline],
    sources := if memW r.sources source then r.sources else r.sources ++ [source] }

/-- Update of the aggregation map at a key with `defaultdict` semantics: a
missing key is appended at the end (Python dict insertion order). -/
def updateEntity (m : List (Str × EntityRecord)) (name : Str)
    (f : EntityRecord → EntityRecord) : List (Str × EntityRecord) :=
  match m with
  | [] => [(name, f emptyRecord)]
  | (n, r) :: rest =>
    if n = name then (n, f r) :: rest else (n, r) :: updateEntity rest name f

/-- Body of the candidate loop of `extract_entities_ner` (source lines
249-269) for one candidate `(entity, position)`: validity filter, external
validation, involvement scoring, and the acceptance threshold 0.2. -/
def processCandidate (validate : Str → Str → Bool) (headline source : Str)
    (totalWords : Nat) (m : List (Str × EntityRecord)) (cand : Str × Nat) :
    List (Str × EntityRecord) :=
  if !isValidCompanyName cand.1 then m
  else if !validate cand.1 headline then m
  else if 0.2 ≤ involvementScore cand.1 headline cand.2 totalWords then
    updateEntity m cand.1
      (fun r => addOccurrence r (involvementScore cand.1 headline cand.2 totalWords)
        headline source)
  else m

/-- Body of the article loop of `extract_entities_ner` (source lines
233-269): skip short headlines, tag candidates, process each. -/
def processArticle (extract : Str → List (Str × Nat))
    (validate : Str → Str → Bool) (m : List (Str × EntityRecord))
    (article : Article) : List (Str × EntityRecord) :=
  if article.title.length < 10 then m
  else
    (extract article.title).foldl
      (processCandidate validate article.title article.source
        (splitWords article.title).length) m

/-- Final pass of `extract_entities_ner` (source lines 271-273):
`article_count = len(headlines)` for every entity. -/
def finalizeCounts (m : List (Str × EntityRecord)) : List (Str × EntityRecord) :=
  m.map (fun p => (p.1, { p.2 with article_count := p.2.headlines.length }))

/-- `extract_entities_ner` (source lines 220-275), parametric in the tagger
(the external transformers path or `_extract_with_patterns`) and in the
external Gemini validator `_validate_with_gemini` (both out of scope). -/
def extractEntitiesNER (extract : Str → List (Str × Nat))
    (validate : Str → Str → Bool) (articles : List Article) :
    List (Str × EntityRecord) :=
  finalizeCounts (articles.foldl (processArticle extract validate) [])

/-- `min_mentions` of `rank_by_dominance` (source line 338). -/
def minMentions (total : Nat) : Nat := if total < 10 then 1 else 2

/-- `min_coverage` of `rank_by_dominance` (source line 343). -/
def minCoverage (total : Nat) : ℚ := if total < 100 then 0.003 else 0.005

/-- `coverage_ratio` of `rank_by_dominance` (source line 342). -/
def coverageRatio (articleCount total : Nat) : ℚ :=
  (articleCount : ℚ) / ((max total 1 : Nat) : ℚ)

/-- The noise-floor filter of `rank_by_dominance` (source lines 337-345): an
entity is kept iff the two `continue` guards both fail. -/
def keeps (total : Nat) (r : EntityRecord) : Bool :=
  if r.mentions < minMentions total then false
  else if coverageRatio r.article_count total < minCoverage total then false
  else true

/-- `avg_involvement` of `rank_by_dominance` (source lines 350-352): 0 on an
empty list, else the mean. -/
def avgScores (l : List ℚ) : ℚ := if l.isEmpty then 0 else l.sum / (l.length : ℚ)

/-- `dominance_score` before rounding (source lines 347-360). -/
def dominanceRaw (total : Nat) (r : EntityRecord) : ℚ :=
  min (coverageRatio r.article_count total * 100) 30 +
    avgScores r.involvement_scores * 40 +
    min ((r.sources.length : ℚ) / 10) 1 * 20 +
    min (((r.mentions : ℚ) / ((max r.article_count 1 : Nat) : ℚ)) / 3) 1 * 10

/-- One output row of `rank_by_dominance` (source lines 362-371); `rank` is
only written by the post-sort pass (lines 375-376), so it is created as 0
here. -/
structure RankedEntity where
  name : Str
  mentions : Nat
  articles : Nat
  coverage_pct : ℚ
  avg_involvement : ℚ
  sources : Nat
  dominance_score : ℚ
  entity_type : Str
  rank : Nat

/-- The dict appended for a surviving entity (source lines 362-371). -/
def rankEntry (total : Nat) (name : Str) (r : EntityRecord) : RankedEntity :=
  { name := name,
    mentions := r.mentions,
    articles := r.article_count,
    coverage_pct := round2 (coverageRatio r.article_count total * 100),
    avg_involvement := round1 (avgScores r.involvement_scores * 100),
    sources := r.sources.length,
    dominance_score := round2 (dominanceRaw total r),
    entity_type := s2c "company",
    rank := 0 }

/-- The post-sort pass assigning dense 1-based ranks (source lines 375-376). -/
def assignRanks : Nat → List RankedEntity → List RankedEntity
  | _, [] => []
  | i, e :: es => { e with rank := i } :: assignRanks (i + 1) es

/-- `rank_by_dominance` (source lines 324-378): filter by the noise floors,
build the rows, sort descending by `dominance_score` (Python's stable sort
with `reverse=True`, modelled by a stable merge sort whose order places `a`
before `b` when `b.dominance_score ≤ a.dominance_score`), then assign dense
1-based ranks. -/
def rankByDominance (data : List (Str × EntityRecord)) (total : Nat) :
    List RankedEntity :=
  assignRanks 1
    ((data.filterMap (fun p =>
        if keeps total p.2 then some (rankEntry total p.1 p.2) else none)).mergeSort
      (fun a b => decide (b.dominance_score ≤ a.dominance_score)))

/-- `extract_top_companies` (source lines 380-396): empty input short-circuits
to an empty list; otherwise aggregate, rank, and take the first `top_n`.  The
`query` argument is accepted and unused, as in the source. -/
def extractTopCompanies (extract : Str → List (Str × Nat))
    (validate : Str → Str → Bool) (articles : List Article) (query : Str)
    (top_n : Nat) : List RankedEntity :=
  if articles.isEmpty then []
  else (rankByDominance (extractEntitiesNER extract validate articles)
    articles.length).take top_n

/-- C9: on an empty article list `extract_top_companies` returns the empty
sequence, whatever the tagger, the validator, the query and `top_n` are — in
particular without consulting the extraction or ranking stages. -/
theorem extract_top_companies_empty (extract : Str → List (Str × Nat))
    (validate : Str → Str → Bool) (query : Str) (top_n : Nat) :
    extractTopCompanies extract validate [] query top_n = [] := rfl

theorem updateEntity_forall (P : EntityRecord → Prop)
    (f : EntityRecord → EntityRecord) (name : Str)
    (hnew : P (f emptyRecord)) (hf : ∀ r, P r → P (f r)) :
    ∀ m, (∀ p ∈ m, P p.2) → ∀ p ∈ updateEntity m name f, P p.2 := by
  intro m
  induction m with
  | nil =>
    intro _ p hp
    rw [updateEntity] at hp
    rw [List.mem_singleton.1 hp]
    exact hnew
  | cons hd rest ih =>
    obtain ⟨n, r⟩ := hd
    intro hm p hp
    rw [updateEntity] at hp
    by_cases hn : n = name
    · rw [if_pos hn] at hp
      rcases List.mem_cons.1 hp with rfl | hp
      · exact hf r (hm (n, r) (by simp))
      · exact hm p (by simp [hp])
    · rw [if_neg hn] at hp
      rcases List.mem_cons.1 hp with rfl | hp
      · exact hm (n, r) (by simp)
      · exact ih (fun q hq => hm q (by simp [hq])) p hp

theorem processCandidate_forall (P : EntityRecord → Prop)
    (hadd : ∀ r score headline source, P r → 0.2 ≤ score → score ≤ 1 →
      P (addOccurrence r score headline source))
    (hemp : P emptyRecord) (validate : Str → Str → Bool)
    (headline source : Str) (totalWords : Nat)
    (m : List (Str × EntityRecord)) (cand : Str × Nat)
    (hm : ∀ p ∈ m, P p.2) :
    ∀ p ∈ processCandidate validate headline source totalWords m cand, P p.2 := by
  intro p hp
  unfold processCandidate at hp
  split at hp
  · exact hm p hp
  · split at hp
    · exact hm p hp
    · split at hp
      · next hge =>
        refine updateEntity_forall P _ cand.1 ?_ ?_ m hm p hp
        · exact hadd emptyRecord _ headline source hemp hge
            (involvementScore_le_one cand.1 headline cand.2 totalWords)
        · intro r hr
          exact hadd r _ headline source hr hge
            (involvementScore_le_one cand.1 headline cand.2 totalWords)
      · exact hm p hp

theorem foldl_preserve {α : Type} (P : EntityRecord → Prop)
    (step : List (Str × EntityRecord) → α → List (Str × EntityRecord))
    (hstep : ∀ m a, (∀ p ∈ m, P p.2) → ∀ p ∈ step m a, P p.2) :
    ∀ (xs : List α) (m : List (Str × EntityRecord)),
      (∀ p ∈ m, P p.2) → ∀ p ∈ xs.foldl step m, P p.2 := by
  intro xs
  induction xs with
  | nil => intro m hm p hp; exact hm p hp
  | cons x xs ih =>
    intro m hm p hp
    rw [List.foldl_cons] at hp
    exact ih (step m x) (hstep m x hm) p hp

theorem processArticle_forall (P : EntityRecord → Prop)
    (hadd : ∀ r score headline source, P r → 0.2 ≤ score → score ≤ 1 →
      P (addOccurrence r score headline source))
    (hemp : P emptyRecord) (extract : Str → List (Str × Nat))
    (validate : Str → Str → Bool) (m : List (Str × EntityRecord))
    (article : Article) (hm : ∀ p ∈ m, P p.2) :
    ∀ p ∈ processArticle extract validate m article, P p.2 := by
  intro p hp
  unfold processArticle at hp
  split at hp
  · exact hm p hp
  · exact foldl_preserve P _
      (fun m' c hm' => processCandidate_forall P hadd hemp validate
        article.title article.source (splitWords article.title).length m' c hm')
      (extract article.title) m hm p hp

/-- The aggregate invariant that `extract_entities_ner` maintains before the
final `article_count` pass: counts stay in lock-step and every stored score
lies in the acceptance window. -/
def goodRec (r : EntityRecord) : Prop :=
  (r.mentions = r.involvement_scores.length ∧
    r.involvement_scores.length = r.headlines.length) ∧
  (∀ s ∈ r.involvement_scores, 0.2 ≤ s ∧ s ≤ 1)

theorem goodRec_empty : goodRec emptyRecord := by
  refine ⟨⟨rfl, rfl⟩, ?_⟩
  intro s hs
  cases hs

theorem goodRec_add (r : EntityRecord) (score : ℚ) (headline source : Str)
    (hr : goodRec r) (hge : 0.2 ≤ score) (hle : score ≤ 1) :
    goodRec (addOccurrence r score headline source) := by
  obtain ⟨⟨h1, h2⟩, h3⟩ := hr
  refine ⟨⟨?_, ?_⟩, ?_⟩
  · simp [addOccurrence, h1]
  · simp [addOccurrence, h2]
  · intro s hs
    simp only [addOccurrence, List.mem_append, List.mem_singleton] at hs
    rcases hs with hs | rfl
    · exact h3 s hs
    · exact ⟨hge, hle⟩

theorem aggregate_good (extract : Str → List (Str × Nat))
    (validate : Str → Str → Bool) (articles : List Article) :
    ∀ p ∈ extractEntitiesNER extract validate articles,
      ∃ r, goodRec r ∧ p.2 = { r with article_count := r.headlines.length } := by
  intro p hp
  unfold extractEntitiesNER finalizeCounts at hp
  rcases List.mem_map.1 hp with ⟨q, hq, rfl⟩
  have hgood : goodRec q.2 :=
    foldl_preserve goodRec _
      (fun m a hm => processArticle_forall goodRec goodRec_add goodRec_empty
        extract validate m a hm)
      articles [] (by intro p hp; cases hp) q hq
  exact ⟨q.2, hgood, rfl⟩

/-- C7: in the aggregate returned by `extract_entities_ner`, every entity
record satisfies `mentions == len(involvement_scores) == len(headlines)` and
`article_count == len(headlines)` — for any tagger, validator and article
list. -/
theorem aggregate_invariant (extract : Str → List (Str × Nat))
    (validate : Str → Str → Bool) (articles : List Article) :
    ∀ p ∈ extractEntitiesNER extract validate articles,
      p.2.mentions = p.2.involvement_scores.length ∧
      p.2.involvement_scores.length = p.2.headlines.length ∧
      p.2.article_count = p.2.headlines.length := by
  intro p hp
  obtain ⟨r, ⟨⟨h1, h2⟩, _⟩, heq⟩ := aggregate_good extract validate articles p hp
  rw [heq]
  exact ⟨h1, h2, rfl⟩

theorem avgScores_nonneg (l : List ℚ) (h : ∀ s ∈ l, 0 ≤ s) : 0 ≤ avgScores l := by
  unfold avgScores
  split
  · exact le_refl 0
  · exact div_nonneg (List.sum_nonneg h) (by positivity)

theorem avgScores_le (l : List ℚ) (b : ℚ) (hb : 0 ≤ b) (h : ∀ s ∈ l, s ≤ b) :
    avgScores l ≤ b := by
  unfold avgScores
  split
  · exact hb
  · next hne =>
    have hlen : 0 < (l.length : ℚ) := by
      have : l ≠ [] := by simpa [List.isEmpty_iff] using hne
      have : 0 < l.length := List.length_pos.2 this
      exact_mod_cast this
    rw [div_le_iff hlen]
    have := List.sum_le_card_nsmul l b h
    rw [nsmul_eq_mul] at this
    linarith

theorem avgScores_ge (l : List ℚ) (a : ℚ) (hne : l ≠ []) (h : ∀ s ∈ l, a ≤ s) :
    a ≤ avgScores l := by
  unfold avgScores
  rw [if_neg (by simpa [List.isEmpty_iff] using hne)]
  have hlen : 0 < (l.length : ℚ) := by
    have : 0 < l.length := List.length_pos.2 hne
    exact_mod_cast this
  rw [le_div_iff hlen]
  have := List.card_nsmul_le_sum l a h
  rw [nsmul_eq_mul] at this
  linarith

theorem keeps_true (total : Nat) (r : EntityRecord) (h : keeps total r = true) :
    minMentions total ≤ r.mentions ∧
    minCoverage total ≤ coverageRatio r.article_count total := by
  unfold keeps at h
  split at h
  · cases h
  · split at h
    · cases h
    · next h1 h2 => exact ⟨Nat.le_of_not_lt h1, le_of_not_lt h2⟩

theorem minMentions_pos (total : Nat) : 1 ≤ minMentions total := by
  unfold minMentions
  split <;> omega

theorem assignRanks_mem (i : Nat) (l : List RankedEntity) (e : RankedEntity)
    (he : e ∈ assignRanks i l) : ∃ x ∈ l, e = { x with rank := e.rank } := by
  induction l generalizing i with
  | nil => cases he
  | cons x xs ih =>
    rw [assignRanks] at he
    rcases List.mem_cons.1 he with rfl | he
    · exact ⟨x, by simp, rfl⟩
    · obtain ⟨y, hy, hey⟩ := ih (i + 1) he
      exact ⟨y, by simp [hy], hey⟩

theorem mem_rankByDominance (data : List (Str × EntityRecord)) (total : Nat)
    (e : RankedEntity) (he : e ∈ rankByDominance data total) :
    ∃ p ∈ data, keeps total p.2 = true ∧
      e = { rankEntry total p.1 p.2 with rank := e.rank } := by
  unfold rankByDominance at he
  obtain ⟨x, hx, hex⟩ := assignRanks_mem 1 _ e he
  rw [List.mem_mergeSort] at hx
  obtain ⟨p, hp, hfp⟩ := List.mem_filterMap.1 hx
  refine ⟨p, hp, ?_, ?_⟩
  · by_cases hk : keeps total p.2
    · exact hk
    · rw [if_neg hk] at hfp; cases hfp
  · by_cases hk : keeps total p.2
    · rw [if_pos hk] at hfp
      rw [hex, Option.some.inj hfp]
    · rw [if_neg hk] at hfp; cases hfp

/-- C10: every involvement score stored in the aggregate lies in
[0.2, 1.0] (the acceptance threshold combined with the scorer's clamp), the
average of a surviving entity's scores lies in [0.2, 1.0], and hence every
ranked entity's `avg_involvement` output field (the average, scaled by 100
and rounded to one digit) lies in [20, 100]. -/
theorem involvement_scores_in_range (extract : Str → List (Str × Nat))
    (validate : Str → Str → Bool) (articles : List Article) :
    (∀ p ∈ extractEntitiesNER extract validate articles,
      (∀ s ∈ p.2.involvement_scores, 0.2 ≤ s ∧ s ≤ 1) ∧
      (p.2.involvement_scores ≠ [] →
        0.2 ≤ avgScores p.2.involvement_scores ∧
          avgScores p.2.involvement_scores ≤ 1)) ∧
    (∀ total : Nat, ∀ e ∈ rankByDominance
        (extractEntitiesNER extract validate articles) total,
      20 ≤ e.avg_involvement ∧ e.avg_involvement ≤ 100) := by
  constructor
  · intro p hp
    obtain ⟨r, ⟨_, h3⟩, heq⟩ := aggregate_good extract validate articles p hp
    have hscores : p.2.involvement_scores = r.involvement_scores := by rw [heq]
    rw [hscores]
    refine ⟨h3, fun hne => ?_⟩
    constructor
    · exact avgScores_ge _ _ hne (fun s hs => (h3 s hs).1)
    · exact avgScores_le _ _ (by norm_num) (fun s hs => (h3 s hs).2)
  · intro total e he
    obtain ⟨p, hp, hk, hee⟩ :=
      mem_rankByDominance (extractEntitiesNER extract validate articles) total e he
    obtain ⟨r, ⟨⟨h1, _⟩, h3⟩, heq⟩ := aggregate_good extract validate articles p hp
    have hmen : 1 ≤ p.2.mentions :=
      le_trans (minMentions_pos total) (keeps_true total p.2 hk).1
    have hne : p.2.involvement_scores ≠ [] := by
      intro habs
      rw [heq] at hmen habs
      simp only at hmen habs
      rw [habs] at h1
      simp [h1] at hmen
    have hsc : p.2.involvement_scores = r.involvement_scores := by rw [heq]
    have havg : 0.2 ≤ avgScores p.2.involvement_scores ∧
        avgScores p.2.involvement_scores ≤ 1 := by
      rw [hsc] at hne ⊢
      exact ⟨avgScores_ge _ _ hne (fun s hs => (h3 s hs).1),
        avgScores_le _ _ (by norm_num) (fun s hs => (h3 s hs).2)⟩
    have hfield : e.avg_involvement =
        round1 (avgScores p.2.involvement_scores * 100) := by
      rw [hee]
      rfl
    rw [hfield]
    constructor
    · have := le_round1 20 (avgScores p.2.involvement_scores * 100)
        (by push_cast; linarith [havg.1])
      exact_mod_cast this
    · have := round1_le 100 (avgScores p.2.involvement_scores * 100)
        (by push_cast; linarith [havg.2])
      exact_mod_cast this

theorem dominanceRaw_bounds (total : Nat) (r : EntityRecord)
    (h : ∀ s ∈ r.involvement_scores, 0 ≤ s ∧ s ≤ 1) :
    0 ≤ dominanceRaw total r ∧ dominanceRaw total r ≤ 100 := by
  have hcov : 0 ≤ coverageRatio r.article_count total := by
    unfold coverageRatio
    positivity
  have ht1l : (0 : ℚ) ≤ min (coverageRatio r.article_count total * 100) 30 :=
    le_min (by linarith) (by norm_num)
  have ht1r : min (coverageRatio r.article_count total * 100) 30 ≤ 30 :=
    min_le_right _ _
  have havl : 0 ≤ avgScores r.involvement_scores :=
    avgScores_nonneg _ (fun s hs => (h s hs).1)
  have havr : avgScores r.involvement_scores ≤ 1 :=
    avgScores_le _ _ (by norm_num) (fun s hs => (h s hs).2)
  have ht3l : (0 : ℚ) ≤ min ((r.sources.length : ℚ) / 10) 1 :=
    le_min (by positivity) (by norm_num)
  have ht3r : min ((r.sources.length : ℚ) / 10) 1 ≤ 1 := min_le_right _ _
  have ht4l : (0 : ℚ) ≤
      min (((r.mentions : ℚ) / ((max r.article_count 1 : Nat) : ℚ)) / 3) 1 :=
    le_min (by positivity) (by norm_num)
  have ht4r : min (((r.mentions : ℚ) / ((max r.article_count 1 : Nat) : ℚ)) / 3) 1 ≤ 1 :=
    min_le_right _ _
  unfold dominanceRaw
  constructor
  · nlinarith
  · nlinarith

theorem assignRanks_map_score (i : Nat) (l : List RankedEntity) :
    (assignRanks i l).map RankedEntity.dominance_score =
      l.map RankedEntity.dominance_score := by
  induction l generalizing i with
  | nil => rfl
  | cons x xs ih => simp [assignRanks, ih]

theorem assignRanks_length (i : Nat) (l : List RankedEntity) :
    (assignRanks i l).length = l.length := by
  induction l generalizing i with
  | nil => rfl
  | cons x xs ih => simp [assignRanks, ih]

theorem assignRanks_map_rank (i : Nat) (l : List RankedEntity) :
    (assignRanks i l).map RankedEntity.rank = List.range' i l.length := by
  induction l generalizing i with
  | nil => rfl
  | cons x xs ih =>
    simp [assignRanks, List.range', ih]

/-- C1: for every entity map and total-articles count, each row produced by
`rank_by_dominance` on inputs whose stored involvement scores lie in [0, 1]
(all aggregates the pipeline builds do, by `aggregate_good`) has
`dominance_score` in [0, 100]; the output is sorted descending by
`dominance_score`; and the `rank` fields, assigned after sorting, are
exactly the dense sequence 1..N. -/
theorem rank_by_dominance_correct (data : List (Str × EntityRecord))
    (total : Nat)
    (h : ∀ p ∈ data, ∀ s ∈ p.2.involvement_scores, 0 ≤ s ∧ s ≤ 1) :
    (∀ e ∈ rankByDominance data total,
      0 ≤ e.dominance_score ∧ e.dominance_score ≤ 100) ∧
    (rankByDominance data total).Pairwise
      (fun a b => b.dominance_score ≤ a.dominance_score) ∧
    (rankByDominance data total).map RankedEntity.rank =
      List.range' 1 (rankByDominance data total).length := by
  refine ⟨?_, ?_, ?_⟩
  · intro e he
    obtain ⟨p, hp, _, hee⟩ := mem_rankByDominance data total e he
    have hd : e.dominance_score = round2 (dominanceRaw total p.2) := by
      rw [hee]; rfl
    obtain ⟨hb1, hb2⟩ := dominanceRaw_bounds total p.2 (h p hp)
    rw [hd]
    exact ⟨round2_nonneg _ hb1, round2_le_100 _ hb2⟩
  · unfold rankByDominance
    have htrans : ∀ a b c : RankedEntity,
        decide (b.dominance_score ≤ a.dominance_score) = true →
        decide (c.dominance_score ≤ b.dominance_score) = true →
        decide (c.dominance_score ≤ a.dominance_score) = true := by
      intro a b c hab hbc
      exact decide_eq_true
        (le_trans (of_decide_eq_true hbc) (of_decide_eq_true hab))
    have htotal : ∀ a b : RankedEntity,
        (decide (b.dominance_score ≤ a.dominance_score) ||
          decide (a.dominance_score ≤ b.dominance_score)) = true := by
      intro a b
      rcases le_total b.dominance_score a.dominance_score with h1 | h1
      · simp [h1]
      · simp [h1]
    have hsorted := List.sorted_mergeSort htrans htotal
      ((data.filterMap (fun p =>
        if keeps total p.2 then some (rankEntry total p.1 p.2) else none)))
    have hsorted' := hsorted.imp (fun hab => of_decide_eq_true hab)
    have h1 : ((assignRanks 1
        (((data.filterMap (fun p =>
          if keeps total p.2 then some (rankEntry total p.1 p.2)
          else none))).mergeSort
          (fun a b => decide (b.dominance_score ≤ a.dominance_score)))).map
        RankedEntity.dominance_score).Pairwise (fun x y : ℚ => y ≤ x) := by
      rw [assignRanks_map_score]
      exact (List.pairwise_map).2 hsorted'
    exact (List.pairwise_map).1 h1
  · unfold rankByDominance
    rw [assignRanks_map_rank, assignRanks_length]

/-- The coverage floor as claim C5 words it ("0.005 when total_articles >
100 and 0.003 otherwise"), kept separate for comparison with the source's
`minCoverage` (`0.003 if total_articles < 100 else 0.005`). -/
def claimedCoverageFloor (total : Nat) : ℚ :=
  if 100 < total then 0.005 else 0.003

/-- Counterexample to C5 as stated: at exactly `total_articles = 100` the
source applies the floor 0.005, while the claim's wording ("> 100") yields
0.003. -/
theorem coverage_floor_boundary :
    minCoverage 100 = 0.005 ∧ claimedCoverageFloor 100 = 0.003 ∧
      minCoverage 100 ≠ claimedCoverageFloor 100 := by
  refine ⟨?_, ?_, ?_⟩ <;> norm_num [minCoverage, claimedCoverageFloor]

/-- C5 (amended): the coverage noise floor is 0.005 when `total_articles ≥
100` and 0.003 otherwise; `coverage_ratio = article_count /
max(total_articles, 1)`; and an entity whose coverage ratio falls below the
floor is rejected. -/
theorem coverage_floor_amended (total : Nat) (r : EntityRecord) :
    minCoverage total = (if 100 ≤ total then (0.005 : ℚ) else 0.003) ∧
    coverageRatio r.article_count total =
      (r.article_count : ℚ) / ((max total 1 : Nat) : ℚ) ∧
    (coverageRatio r.article_count total < minCoverage total →
      keeps total r = false) := by
  refine ⟨?_, rfl, ?_⟩
  · unfold minCoverage
    by_cases h : total < 100
    · rw [if_pos h, if_neg (by omega)]
    · rw [if_neg h, if_pos (by omega)]
  · intro hlt
    unfold keeps
    split
    · rfl
    · simp [hlt]

/-- Concrete record for the C5 witness: 5 mentions but coverage ratio 0. -/
def lowCoverageRec : EntityRecord :=
  { mentions := 5, involvement_scores := [], headlines := [],
    article_count := 0, sources := [] }

/-- Witness for C5 (amended) at `total_articles = 100`: a record with
coverage ratio 0 (below the 0.005 floor) is rejected. -/
theorem coverage_floor_amended_witness : keeps 100 lowCoverageRec = false :=
  (coverage_floor_amended 100 lowCoverageRec).2.2 (by
    norm_num [coverageRatio, minCoverage, lowCoverageRec])

/-- C6: an entity with fewer than 2 mentions is rejected, except that the
floor relaxes to fewer than 1 when `total_articles < 10`; in particular no
row of the ranking of a 50-article corpus ever carries `mentions = 1`,
whatever its scores. -/
theorem min_mentions_floor :
    (∀ total : Nat, minMentions total = if total < 10 then 1 else 2) ∧
    (∀ (total : Nat) (r : EntityRecord),
      r.mentions < minMentions total → keeps total r = false) ∧
    (∀ (data : List (Str × EntityRecord)) (e : RankedEntity),
      e ∈ rankByDominance data 50 → e.mentions ≠ 1) := by
  refine ⟨fun total => rfl, ?_, ?_⟩
  · intro total r hlt
    unfold keeps
    rw [if_pos hlt]
  · intro data e he
    obtain ⟨p, hp, hk, hee⟩ := mem_rankByDominance data 50 e he
    have h2 : minMentions 50 ≤ p.2.mentions := (keeps_true 50 p.2 hk).1
    have hm50 : minMentions 50 = 2 := rfl
    have hm : e.mentions = p.2.mentions := by rw [hee]; rfl
    rw [hm50] at h2
    omega

/-- Concrete record for the C6 witness: one mention in a 50-article corpus. -/
def singleMentionRec : EntityRecord :=
  { mentions := 1, involvement_scores := [0.5], headlines := [s2c "h"],
    article_count := 1, sources := [s2c "w"] }

/-- Concrete surviving record for the C6 witness. -/
def acmeRec : EntityRecord :=
  { mentions := 3, involvement_scores := [0.5],
    headlines := [s2c "h1", s2c "h2"], article_count := 2,
    sources := [s2c "w1"] }

/-- Concrete one-entity map for the C6 witness. -/
def acmeData : List (Str × EntityRecord) := [(s2c "Acme", acmeRec)]

/-- The single row the ranking of `acmeData` produces. -/
def acmeRow : RankedEntity := { rankEntry 50 (s2c "Acme") acmeRec with rank := 1 }

theorem acme_rank_eval : rankByDominance acmeData 50 = [acmeRow] := by
  have hmax : (max 50 1 : Nat) = 50 := by decide
  have hk : keeps 50 acmeRec = true := by
    unfold keeps coverageRatio minMentions minCoverage acmeRec
    rw [hmax]
    norm_num
  unfold rankByDominance acmeData
  rw [List.filterMap_cons]
  simp only [hk, if_true, List.filterMap_nil]
  have hms := List.perm_singleton.1
    (List.mergeSort_perm [rankEntry 50 (s2c "Acme") acmeRec]
      (fun a b => decide (b.dominance_score ≤ a.dominance_score)))
  rw [hms]
  rfl

/-- Witness for C6: the sub-floor record is rejected at `total = 50`, and
the surviving row of a concrete 50-article ranking has `mentions ≠ 1`. -/
theorem min_mentions_floor_witness :
    keeps 50 singleMentionRec = false ∧ acmeRow.mentions ≠ 1 :=
  ⟨min_mentions_floor.2.1 50 singleMentionRec (by decide),
   min_mentions_floor.2.2 acmeData acmeRow
     (by rw [acme_rank_eval]; exact List.mem_singleton.2 rfl)⟩

/-- C3: the involvement scorer on entity "Tesla", headline
"Tesla unveils new factory in Texas", position 0, total words 6 returns
exactly 0.8 (0.3 position factor + 0.4 subject-of-action factor + 0
attribution factor + 0.1 standalone factor). -/
theorem involvement_example_tesla :
    involvementScore (s2c "Tesla") (s2c "Tesla unveils new factory in Texas") 0 6
      = 0.8 := tesla_involvement_eval

/-- Witness instantiation for C4: on the worked example the subject factor
is 0.4, obtained through the characterization ("unveils" is the first
action verb found, and "tesla" occurs at word index 0 before it). -/
theorem subject_factor_single_verb_witness :
    subjectScore (splitWords (lowerStr (s2c "Tesla")))
      (splitWords (lowerStr (s2c "Tesla unveils new factory in Texas"))) = 0.4 :=
  (subject_factor_single_verb (s2c "Tesla")
    (s2c "Tesla unveils new factory in Texas")).2.mpr
    ⟨s2c "unveils", by decide, s2c "tesla", by decide, 0, by decide, by decide⟩

/-- A concrete tagger for witnesses: always proposes "Tesla" at position 0
(the theorems hold for every tagger, so any concrete one will do). -/
def tagTesla : Str → List (Str × Nat) := fun _ => [(s2c "Tesla", 0)]

/-- A concrete validator for witnesses: accepts everything (the unavailable
Gemini path of `_validate_with_gemini` behaves this way). -/
def alwaysValid : Str → Str → Bool := fun _ _ => true

/-- A concrete article for witnesses. -/
def artTesla : Article :=
  { title := s2c "Tesla unveils new factory in Texas", source := s2c "TestWire" }

/-- The record the aggregator builds for "Tesla" from `artTesla`. -/
def recTesla : EntityRecord :=
  { mentions := 1, involvement_scores := [0.8],
    headlines := [s2c "Tesla unveils new factory in Texas"],
    article_count := 1,
    sources := [s2c "TestWire"] }

theorem agg_tesla :
    extractEntitiesNER tagTesla alwaysValid [artTesla] =
      [(s2c "Tesla", recTesla)] := by
  have hok : (!isValidCompanyName (s2c "Tesla")) = false := by decide
  have hwords : (splitWords artTesla.title).length = 6 := by decide
  have hinv : involvementScore (s2c "Tesla") artTesla.title 0 6 = 0.8 :=
    tesla_involvement_eval
  unfold extractEntitiesNER
  rw [List.foldl_cons, List.foldl_nil]
  unfold processArticle
  rw [if_neg (by decide), hwords]
  show finalizeCounts
    (processCandidate alwaysValid artTesla.title artTesla.source 6 [] (s2c "Tesla", 0))
    = _
  unfold processCandidate
  rw [hok]
  simp only [Bool.false_eq_true, if_false, alwaysValid, Bool.not_true, hinv]
  rw [if_pos (by norm_num)]
  rfl

/-- Witness for C7: the concrete aggregate of one article satisfies the
lock-step invariant. -/
theorem aggregate_invariant_witness :
    recTesla.mentions = recTesla.involvement_scores.length ∧
    recTesla.involvement_scores.length = recTesla.headlines.length ∧
    recTesla.article_count = recTesla.headlines.length :=
  aggregate_invariant tagTesla alwaysValid [artTesla] (s2c "Tesla", recTesla)
    (by rw [agg_tesla]; exact List.mem_singleton.2 rfl)

/-- The single row the ranking of the Tesla aggregate produces at
`total_articles = 1`. -/
def teslaRow : RankedEntity :=
  { rankEntry 1 (s2c "Tesla") recTesla with rank := 1 }

theorem tesla_rank_eval :
    rankByDominance [(s2c "Tesla", recTesla)] 1 = [teslaRow] := by
  have hmax : (max 1 1 : Nat) = 1 := by decide
  have hk : keeps 1 recTesla = true := by
    unfold keeps coverageRatio minMentions minCoverage recTesla
    rw [hmax]
    norm_num
  unfold rankByDominance
  rw [List.filterMap_cons]
  simp only [hk, if_true, List.filterMap_nil]
  rw [List.perm_singleton.1 (List.mergeSort_perm _ _)]
  rfl

/-- Witness for C10: the stored score 0.8 of the concrete aggregate lies in
[0.2, 1], its average does, and the concrete ranked row's scaled
`avg_involvement` lies in [20, 100]. -/
theorem involvement_scores_in_range_witness :
    ((∀ s ∈ recTesla.involvement_scores, 0.2 ≤ s ∧ s ≤ 1) ∧
      (recTesla.involvement_scores ≠ [] →
        0.2 ≤ avgScores recTesla.involvement_scores ∧
          avgScores recTesla.involvement_scores ≤ 1)) ∧
    (20 ≤ teslaRow.avg_involvement ∧ teslaRow.avg_involvement ≤ 100) :=
  ⟨(involvement_scores_in_range tagTesla alwaysValid [artTesla]).1
      (s2c "Tesla", recTesla) (by rw [agg_tesla]; exact List.mem_singleton.2 rfl),
   (involvement_scores_in_range tagTesla alwaysValid [artTesla]).2 1 teslaRow
      (by rw [agg_tesla, tesla_rank_eval]; exact List.mem_singleton.2 rfl)⟩

/-- Witness for C1: on a concrete one-entity map at `total_articles = 50`
the ranking's score is within [0, 100], the output is sorted and the ranks
are 1..N. -/
theorem rank_by_dominance_correct_witness :
    (∀ e ∈ rankByDominance acmeData 50,
      0 ≤ e.dominance_score ∧ e.dominance_score ≤ 100) ∧
    (rankByDominance acmeData 50).Pairwise
      (fun a b => b.dominance_score ≤ a.dominance_score) ∧
    (rankByDominance acmeData 50).map RankedEntity.rank =
      List.range' 1 (rankByDominance acmeData 50).length :=
  rank_by_dominance_correct acmeData 50 (by
    intro p hp s hs
    have hpe : p = (s2c "Acme", acmeRec) := List.mem_singleton.1 hp
    subst hpe
    have hse : s = 0.5 := List.mem_singleton.1 hs
    subst hse
    norm_num)
